import Mathlib

/-!
Verification of the WriteRight bot (`bot.py`): the mode-dispatch and
output-formatting pipeline.  Strings are modelled as `List Char`; the
Python string operations used by the source (`str.split(sep, 1)`,
`str.replace`, `str.lstrip`, `str.strip`, slicing) are embedded as
executable functions on `List Char`.
-/

set_option maxRecDepth 20000

/-- Characters treated as whitespace by Python's `str.strip` / `str.lstrip`. -/
def pySpaceChars : List Char :=
  [' ', '\t', '\n', '\r', '\x0b', '\x0c',
   '\x1c', '\x1d', '\x1e', '\x1f', '\x85', '\xa0',
   '\u1680', '\u2000', '\u2001', '\u2002', '\u2003', '\u2004', '\u2005',
   '\u2006', '\u2007', '\u2008', '\u2009', '\u200a', '\u2028', '\u2029',
   '\u202f', '\u205f', '\u3000']

/-- Python whitespace test used by `lstrip`/`strip`. -/
def isPySpace (c : Char) : Bool := pySpaceChars.contains c

/-- Python `str.lstrip()`: drop leading whitespace. -/
def lstrip : List Char → List Char
  | [] => []
  | c :: cs => if isPySpace c then lstrip cs else c :: cs

/-- Python `str.rstrip()`: drop trailing whitespace. -/
def rstrip (s : List Char) : List Char := (lstrip s.reverse).reverse

/-- Python `str.strip()`: drop whitespace at both ends. -/
def pyStrip (s : List Char) : List Char := rstrip (lstrip s)

/-- Split a string at the first occurrence of `m`, as Python's
`s.split(m, 1)` does: `some (before, after)` when `m` occurs, `none`
otherwise. -/
def splitFirst (m : List Char) : List Char → Option (List Char × List Char)
  | [] => if m.isPrefixOf ([] : List Char) then some ([], []) else none
  | c :: cs =>
    if m.isPrefixOf (c :: cs) then some ([], (c :: cs).drop m.length)
    else Option.map (fun p => (c :: p.1, p.2)) (splitFirst m cs)

/-- Python `output.replace("```", "")`: delete every (leftmost-first,
non-overlapping) occurrence of the three-backtick fence. -/
def removeFences : List Char → List Char
  | [] => []
  | [c] => [c]
  | [c, d] => [c, d]
  | c :: d :: e :: r =>
    if c = '`' ∧ d = '`' ∧ e = '`' then removeFences r
    else c :: removeFences (d :: e :: r)

/-- Number of (leftmost-first, non-overlapping) occurrences of the
three-backtick fence in a string, as Python's `s.count("```")`. -/
def countFence : List Char → Nat
  | [] => 0
  | [_] => 0
  | [_, _] => 0
  | c :: d :: e :: r =>
    if c = '`' ∧ d = '`' ∧ e = '`' then 1 + countFence r
    else countFence (d :: e :: r)

/-- The corrected-text marker searched for by `wrap_corrected_text_block`. -/
def markerStr : List Char := "✅ CORRECTED TEXT:".data

/-- The three-backtick fence. -/
def fenceStr : List Char := "```".data

/-- The fenced block built around the corrected line:
`"```" + "\n" + line + "\n" + "```"`. -/
def wrapBlock (line : List Char) : List Char :=
  fenceStr ++ '\n' :: (line ++ '\n' :: fenceStr)

/-- `wrap_corrected_text_block` from `bot.py`: find the first occurrence of
the marker, lstrip what follows, take its first line, strip it, and re-wrap
it in a fenced block; text with no marker is returned unchanged. -/
def wrap_corrected_text_block (output : List Char) : List Char :=
  match splitFirst markerStr output with
  | none => output
  | some (before, afterRaw) =>
    let after := lstrip afterRaw
    match splitFirst ['\n'] after with
    | none => before ++ markerStr ++ '\n' :: wrapBlock (pyStrip after)
    | some (l0, rest) =>
      before ++ markerStr ++ '\n' :: (wrapBlock (pyStrip l0) ++ '\n' :: rest)

/-- The chunking loop `for i in range(0, len(output), 4000)`: successive
4000-character slices from the start. -/
def splitChunks (s : List Char) : List (List Char) :=
  if s = [] then []
  else s.take 4000 :: splitChunks (s.drop 4000)
termination_by s.length
decreasing_by
  rename_i h
  have h0 : 0 < s.length := List.length_pos.mpr h
  simp only [List.length_drop]
  omega

/-- Messages actually delivered for a formatted output: a single message
when it fits in 4000 characters (the placeholder is edited in place),
otherwise the 4000-character slices (sent after deleting the placeholder). -/
def toChunks (s : List Char) : List (List Char) :=
  if s.length ≤ 4000 then [s] else splitChunks s

/-- The string-transformation stage of the response formatter, as applied
in `analyze_text`: `response.text.strip()`, then `.replace("```", "")`,
then `wrap_corrected_text_block`. -/
def formatText (raw : List Char) : List Char :=
  wrap_corrected_text_block (removeFences (pyStrip raw))

/-- The full response formatter: string transformation followed by
splitting into transport-sized chunks. -/
def formatChunks (raw : List Char) : List (List Char) :=
  toChunks (formatText raw)

/-- Mode strings. -/
def checkStr : List Char := "check".data

def rewriteStr : List Char := "rewrite".data

def explainStr : List Char := "explain".data

def improveStr : List Char := "improve".data

/-- The task-selection chain of `analyze_text` (`if mode == "check": ...`). -/
def taskFor (mode : List Char) : List Char :=
  if mode = checkStr then "Analyze grammar and correctness.".data
  else if mode = rewriteStr then "Rewrite this text clearly and naturally.".data
  else if mode = explainStr then "Explain grammar rules.".data
  else if mode = improveStr then "Suggest improvements.".data
  else "Analyze grammar.".data

/-- Text of the prompt template before the interpolated task. -/
def promptPre : List Char :=
  "\nYou are WriteRight, an English writing tutor.\n\nTask: ".data

/-- Text of the prompt template between the task and the user text. -/
def promptMid : List Char :=
  ("\n\nFollow the structure below:\n\n📝 REVIEW:\n[Correct / Partially Correct / Incorrect]\n\n🔍 ERRORS FOUND:\n• Type: [type]\n• Original: [text]\n• Correction: [text]\n• Rule: [rule]\n• Explanation: [explanation]\n\n💡 SUGGESTIONS:\n• [Suggestion 1]\n• [Suggestion 2]\n\n✅ CORRECTED TEXT:\n[text]\n\nUser text: ").data

/-- The f-string prompt of `analyze_text`, with the task for the given mode
and the raw user text interpolated. -/
def build_prompt (user_text : List Char) (mode : List Char) : List Char :=
  promptPre ++ taskFor mode ++ promptMid ++ user_text ++ ['\n']

/-- Per-conversation `context.user_data`, modelled as an association list of
string keys and string values. -/
def UserData : Type := List (List Char × List Char)

/-- The only key the bot stores. -/
def modeKey : List Char := "mode".data

/-- `context.user_data[k] = v`. -/
def user_data_set (k v : List Char) (d : UserData) : UserData := (k, v) :: d

/-- `context.user_data.clear()`. -/
def user_data_clear (_ : UserData) : UserData := []

/-- `context.user_data.get("mode", "check")`. -/
def get_mode (d : UserData) : List Char :=
  (List.lookup modeKey d).getD checkStr

/-- State effect of the `/start` handler. -/
def start_state (d : UserData) : UserData := user_data_set modeKey checkStr d

/-- State effect of the `/check` handler. -/
def check_command_state (d : UserData) : UserData :=
  user_data_set modeKey checkStr d

/-- State effect of the `/rewrite` handler. -/
def rewrite_command_state (d : UserData) : UserData :=
  user_data_set modeKey rewriteStr d

/-- State effect of the `/explain` handler. -/
def explain_command_state (d : UserData) : UserData :=
  user_data_set modeKey explainStr d

/-- State effect of the `/improve` handler. -/
def improve_command_state (d : UserData) : UserData :=
  user_data_set modeKey improveStr d

/-- State effect of the `/clear` handler: `user_data.clear()` followed by
`user_data["mode"] = "check"`. -/
def clear_command_state (d : UserData) : UserData :=
  user_data_set modeKey checkStr (user_data_clear d)

/-- The fixed apology sent when the `try` block of `analyze_text` fails. -/
def apologyMsg : List Char := "⚠️ Something went wrong. Please try again.".data

/-- Observable outcome of one `analyze_text` invocation.  `statusEdit` is
the text the "Analyzing… 🔍" placeholder is edited to (when it is edited
rather than deleted); `extraMessages` are the messages sent after deleting
the placeholder on the multi-chunk path; `loggedError` is what reaches the
operator log. -/
structure AnalyzeResult where
  newState : UserData
  promptSent : List Char
  statusEdit : Option (List Char)
  extraMessages : List (List Char)
  loggedError : Option (List Char)

/-- The free-text handler `analyze_text`.  `msgText` is
`update.message.text` (`none` when absent); the external model call is a
parameter returning either the response text or the exception caught by
the handler's `except` block. -/
def analyze_text (d : UserData) (msgText : Option (List Char))
    (model : List Char → Except (List Char) (List Char)) : AnalyzeResult :=
  let user_text := msgText.getD []
  let mode := get_mode d
  let prompt := build_prompt user_text mode
  match model prompt with
  | Except.ok resp =>
    let output := wrap_corrected_text_block (removeFences (pyStrip resp))
    if output.length ≤ 4000 then
      { newState := d, promptSent := prompt, statusEdit := some output,
        extraMessages := [], loggedError := none }
    else
      { newState := d, promptSent := prompt, statusEdit := none,
        extraMessages := splitChunks output, loggedError := none }
  | Except.error e =>
    { newState := d, promptSent := prompt, statusEdit := some apologyMsg,
      extraMessages := [], loggedError := some e }

/-! ## Support lemmas: prefixes, suffixes, infixes -/

/-- A prefix is an infix. -/
theorem infixOfPre {l₁ l₂ : List Char} (h : l₁ <+: l₂) : l₁ <:+: l₂ := by
  obtain ⟨t, ht⟩ := h
  exact ⟨[], t, by simpa using ht⟩

/-- A suffix is an infix. -/
theorem infixOfSuf {l₁ l₂ : List Char} (h : l₁ <:+ l₂) : l₁ <:+: l₂ := by
  obtain ⟨u, hu⟩ := h
  exact ⟨u, [], by simpa using hu⟩

/-- `take` yields a prefix. -/
theorem preOfTake (n : Nat) (l : List Char) : l.take n <+: l :=
  ⟨l.drop n, List.take_append_drop n l⟩

/-- Decompose an infix of a concatenation: it lies in the left part, in the
right part, or straddles the boundary. -/
theorem infix_append_cases {l X Y : List Char} (h : l <:+: X ++ Y) :
    l <:+: X ∨ l <:+: Y ∨
      ∃ a b, a ++ b = l ∧ a ≠ [] ∧ b ≠ [] ∧ a <:+ X ∧ b <+: Y := by
  obtain ⟨u, v, huv⟩ := h
  rw [List.append_assoc] at huv
  rcases List.append_eq_append_iff.mp huv with ⟨a', hX, hlv⟩ | ⟨c', _, hY⟩
  · rcases List.append_eq_append_iff.mp hlv with ⟨k, ha'k, _⟩ | ⟨k, hl, hYk⟩
    · exact Or.inl ⟨u, k, by rw [hX, ha'k, List.append_assoc]⟩
    · rcases eq_or_ne a' [] with rfl | ha
      · exact Or.inr (Or.inl (infixOfPre ⟨v, by simp only [List.nil_append] at hl; simp [hYk, hl]⟩))
      · rcases eq_or_ne k [] with rfl | hk
        · refine Or.inl (infixOfSuf ⟨u, ?_⟩)
          rw [hX]
          simp [hl]
        · exact Or.inr (Or.inr ⟨a', k, hl.symm, ha, hk, ⟨u, hX.symm⟩, ⟨v, hYk.symm⟩⟩)
  · exact Or.inr (Or.inl ⟨c', v, by rw [hY, List.append_assoc]⟩)

/-! ## Support lemmas: `splitFirst` -/

/-- `splitFirst` when the pattern is a prefix: split at position 0. -/
theorem splitFirst_pos {m s : List Char} (h : m.isPrefixOf s) :
    splitFirst m s = some ([], s.drop m.length) := by
  cases s with
  | nil => simp [splitFirst, h]
  | cons c cs => simp [splitFirst, h]

/-- `splitFirst` on a cons cell whose head does not start the pattern. -/
theorem splitFirst_cons_not {m : List Char} {c : Char} {cs : List Char}
    (h : m.isPrefixOf (c :: cs) = false) :
    splitFirst m (c :: cs) =
      Option.map (fun p => (c :: p.1, p.2)) (splitFirst m cs) := by
  simp [splitFirst, h]

/-- A successful `splitFirst` decomposes the string around the pattern. -/
theorem splitFirst_eq_append {m s b a : List Char}
    (h : splitFirst m s = some (b, a)) : s = b ++ m ++ a := by
  induction s generalizing b a with
  | nil =>
    simp only [splitFirst] at h
    split at h
    · rename_i hp
      obtain ⟨t, ht⟩ := List.isPrefixOf_iff_prefix.mp hp
      obtain ⟨hm, ht'⟩ := List.append_eq_nil.mp ht
      simp only [Option.some.injEq, Prod.mk.injEq] at h
      obtain ⟨hb, ha⟩ := h
      simp [← hb, ← ha, hm]
    · exact absurd h (by simp)
  | cons c cs ih =>
    simp only [splitFirst] at h
    split at h
    · rename_i hp
      obtain ⟨t, ht⟩ := List.isPrefixOf_iff_prefix.mp hp
      simp only [Option.some.injEq, Prod.mk.injEq] at h
      obtain ⟨hb, ha⟩ := h
      rw [← hb, ← ha, ← ht, List.nil_append, List.drop_left]
    · cases hs : splitFirst m cs with
      | none => rw [hs] at h; exact absurd h (by simp)
      | some p =>
        rw [hs] at h
        simp only [Option.map_some', Option.some.injEq, Prod.mk.injEq] at h
        obtain ⟨hb, ha⟩ := h
        have := @ih p.1 p.2 (by rw [hs])
        rw [← hb, ← ha, this]
        simp

/-- `splitFirst` succeeds when the pattern occurs. -/
theorem splitFirst_ne_none_of_in {m s : List Char} (h : m <:+: s) :
    splitFirst m s ≠ none := by
  induction s with
  | nil =>
    rw [List.infix_nil] at h
    subst h
    simp [splitFirst]
  | cons c cs ih =>
    rw [List.infix_cons_iff] at h
    cases hp : m.isPrefixOf (c :: cs) with
    | true => simp [splitFirst_pos hp]
    | false =>
      rw [splitFirst_cons_not hp]
      rcases h with h | h
      · exact absurd (List.isPrefixOf_iff_prefix.mpr h) (by simp [hp])
      · simp only [ne_eq, Option.map_eq_none']
        exact ih h

/-- `splitFirst` returns `none` exactly when the pattern does not occur. -/
theorem splitFirst_none_iff {m s : List Char} :
    splitFirst m s = none ↔ ¬ m <:+: s := by
  constructor
  · intro h hin
    exact splitFirst_ne_none_of_in hin h
  · intro h
    cases hs : splitFirst m s with
    | none => rfl
    | some p =>
      exact absurd ⟨p.1, p.2, (splitFirst_eq_append (by rw [hs])).symm⟩ h

/-- If the pattern starts nowhere strictly inside `B`, then `splitFirst`
finds exactly the planted occurrence. -/
theorem splitFirst_append {m B t : List Char}
    (h : ∀ B', B' <:+ B → B' ≠ [] → ¬ (m <+: B' ++ m ++ t)) :
    splitFirst m (B ++ m ++ t) = some (B, t) := by
  induction B with
  | nil =>
    have hp : m.isPrefixOf (([] : List Char) ++ m ++ t) := by
      simp only [List.nil_append, List.append_assoc]
      exact List.isPrefixOf_iff_prefix.mpr (List.prefix_append m t)
    rw [splitFirst_pos hp]
    simp [List.drop_left]
  | cons c B' ih =>
    have hnp : m.isPrefixOf ((c :: B') ++ m ++ t) = false := by
      cases hb : m.isPrefixOf ((c :: B') ++ m ++ t) with
      | false => rfl
      | true =>
        exact absurd (List.isPrefixOf_iff_prefix.mp hb)
          (h (c :: B') List.suffix_rfl (List.cons_ne_nil c B'))
    have hcons : (c :: B') ++ m ++ t = c :: (B' ++ m ++ t) := by simp
    rw [hcons] at hnp
    rw [hcons, splitFirst_cons_not hnp,
      ih (fun B'' hs hn => h B'' (hs.trans ⟨[c], rfl⟩) hn)]
    rfl

/-- If `m` is a prefix of `B ++ m ++ t` and `B` is shorter than `m`, the
occurrence straddles the boundary: `B` is an initial segment of `m` and `m`
overlaps itself. -/
theorem eq_take_of_pre_append {m B t : List Char}
    (hp : m <+: B ++ (m ++ t)) (hlt : B.length < m.length) :
    B = m.take B.length ∧ m = B ++ m.take (m.length - B.length) := by
  obtain ⟨r, hr⟩ := hp
  have h1 : m = (B ++ (m ++ t)).take m.length := by
    rw [← hr, List.take_left]
  rw [List.take_append_eq_append_take,
    List.take_of_length_le (Nat.le_of_lt hlt),
    List.take_append_of_le_length (Nat.sub_le _ _)] at h1
  refine ⟨?_, h1⟩
  calc B = (B ++ List.take (m.length - B.length) m).take B.length := by
        rw [List.take_left' rfl]
      _ = m.take B.length := by rw [← h1]

/-- The corrected-text marker has no nontrivial self-overlap. -/
theorem marker_unbordered :
    ∀ k, k < markerStr.length → 0 < k →
      markerStr ≠ markerStr.take k ++ markerStr.take (markerStr.length - k) := by
  decide

/-- For a marker-free `B`, the marker cannot start strictly inside `B` in
`B ++ markerStr ++ t` (the marker has no self-overlap). -/
theorem marker_no_early {B t : List Char} (hB : ¬ markerStr <:+: B) :
    ∀ B', B' <:+ B → B' ≠ [] → ¬ (markerStr <+: B' ++ markerStr ++ t) := by
  intro B' hs hne hp
  rcases Nat.lt_or_ge B'.length markerStr.length with hlt | hle
  · rw [List.append_assoc] at hp
    obtain ⟨h1, h2⟩ := eq_take_of_pre_append hp hlt
    exact marker_unbordered B'.length hlt
      (List.length_pos.mpr hne) (by rw [← h1]; exact h2)
  · have h1 : B' <+: B' ++ markerStr ++ t := by
      rw [List.append_assoc]
      exact List.prefix_append B' _
    have h2 : markerStr <+: B' := List.prefix_of_prefix_length_le hp h1 hle
    exact hB ((infixOfPre h2).trans (infixOfSuf hs))

/-- `splitFirst` at the marker finds a planted occurrence after marker-free
text. -/
theorem splitFirst_marker_append {B t : List Char} (hB : ¬ markerStr <:+: B) :
    splitFirst markerStr (B ++ markerStr ++ t) = some (B, t) :=
  splitFirst_append (marker_no_early hB)

/-! ## Support lemmas: `removeFences` and `countFence` -/

/-- `removeFences` keeps a head that does not start a fence. -/
theorem removeFences_cons {c : Char} {s : List Char}
    (h : ¬ fenceStr <+: c :: s) :
    removeFences (c :: s) = c :: removeFences s := by
  match s with
  | [] => rfl
  | [d] => rfl
  | d :: e :: r =>
    simp only [removeFences]
    rw [if_neg]
    rintro ⟨h1, h2, h3⟩
    subst h1 h2 h3
    exact h ⟨r, rfl⟩

/-- `removeFences` leaves fence-free text unchanged. -/
theorem removeFences_eq_self {s : List Char} (h : ¬ fenceStr <:+: s) :
    removeFences s = s := by
  induction s with
  | nil => rfl
  | cons c cs ih =>
    rw [removeFences_cons (fun hp => h (infixOfPre hp)),
      ih (fun hin => h (List.infix_cons_iff.mpr (Or.inr hin)))]

/-- The output of `removeFences` contains no fence. -/
theorem fence_not_in_removeFences (s : List Char) :
    ¬ fenceStr <:+: removeFences s := by
  induction s using removeFences.induct with
  | case1 =>
    intro h
    rw [show removeFences [] = [] from rfl, List.infix_nil] at h
    exact absurd h (by decide)
  | case2 c =>
    intro h
    have := h.length_le
    simp [removeFences, fenceStr] at this
  | case3 c d =>
    intro h
    have := h.length_le
    simp [removeFences, fenceStr] at this
  | case4 c d e r hcde ih =>
    simpa only [removeFences, if_pos hcde] using ih
  | case5 c d e r hcde ih =>
    simp only [removeFences, if_neg hcde]
    intro h
    rcases List.infix_cons_iff.mp h with hp | hin
    · -- the fence would have to start at the head
      have hc : c = '`' := by
        have : fenceStr = '`' :: '`' :: ['`'] := rfl
        rw [this, List.cons_prefix_cons] at hp
        exact hp.1.symm
      have hde : ¬ (d = '`' ∧ e = '`') := fun ⟨h1, h2⟩ => hcde ⟨hc, h1, h2⟩
      have hW : removeFences (d :: e :: r) = d :: removeFences (e :: r) := by
        apply removeFences_cons
        intro hpf
        have : fenceStr = '`' :: '`' :: ['`'] := rfl
        rw [this, List.cons_prefix_cons, List.cons_prefix_cons] at hpf
        exact hde ⟨hpf.1.symm, hpf.2.1.symm⟩
      rw [hW] at hp
      have : fenceStr = '`' :: '`' :: ['`'] := rfl
      rw [this, List.cons_prefix_cons, List.cons_prefix_cons] at hp
      have hd : d = '`' := hp.2.1.symm
      have he : e ≠ '`' := fun h2 => hde ⟨hd, h2⟩
      have hW2 : removeFences (e :: r) = e :: removeFences r := by
        apply removeFences_cons
        intro hpf
        rw [this, List.cons_prefix_cons] at hpf
        exact he hpf.1.symm
      rw [hW2, List.cons_prefix_cons] at hp
      exact he hp.2.2.1.symm
    · exact ih hin

/-- `countFence` ignores a head that does not start a fence. -/
theorem countFence_cons {c : Char} {s : List Char}
    (h : ¬ fenceStr <+: c :: s) :
    countFence (c :: s) = countFence s := by
  match s with
  | [] => rfl
  | [d] => rfl
  | d :: e :: r =>
    simp only [countFence]
    rw [if_neg]
    rintro ⟨h1, h2, h3⟩
    subst h1 h2 h3
    exact h ⟨r, rfl⟩

/-- Fence-free text has fence count zero. -/
theorem countFence_eq_zero {s : List Char} (h : ¬ fenceStr <:+: s) :
    countFence s = 0 := by
  induction s with
  | nil => rfl
  | cons c cs ih =>
    rw [countFence_cons (fun hp => h (infixOfPre hp)),
      ih (fun hin => h (List.infix_cons_iff.mpr (Or.inr hin)))]

/-- A fence at the front is counted once. -/
theorem countFence_fence_append (t : List Char) :
    countFence (fenceStr ++ t) = 1 + countFence t := by
  show countFence ('`' :: '`' :: '`' :: t) = 1 + countFence t
  simp [countFence]

/-- Counting across a planted fence after fence-free text that does not end
in a backtick. -/
theorem countFence_append {P t : List Char} (hP : ¬ fenceStr <:+: P)
    (hlast : P.getLast? ≠ some '`') :
    countFence (P ++ (fenceStr ++ t)) = 1 + countFence t := by
  induction P with
  | nil => simpa using countFence_fence_append t
  | cons c P' ih =>
    have hnp : ¬ fenceStr <+: (c :: P') ++ (fenceStr ++ t) := by
      intro hp
      rcases Nat.lt_or_ge (c :: P').length fenceStr.length with hlt | hle
      · obtain ⟨h1, _⟩ := eq_take_of_pre_append hp hlt
        have hin : (c :: P').getLast? = some '`' := by
          have h2 : (c :: P').length = 1 ∨ (c :: P').length = 2 := by
            have : fenceStr.length = 3 := rfl
            rw [this] at hlt
            simp only [List.length_cons] at hlt ⊢
            omega
          rcases h2 with h2 | h2
          · have hP0 : P' = [] := by
              simp only [List.length_cons] at h2
              exact List.length_eq_zero.mp (by omega)
            subst hP0
            rw [h2] at h1
            rw [show fenceStr.take 1 = ['`'] from rfl] at h1
            rw [List.cons.injEq] at h1
            simp [h1.1]
          · obtain ⟨d, hP1⟩ : ∃ d, P' = [d] := by
              simp only [List.length_cons] at h2
              obtain ⟨d, hd⟩ := List.length_eq_one.mp (by omega : P'.length = 1)
              exact ⟨d, hd⟩
            subst hP1
            rw [h2] at h1
            rw [show fenceStr.take 2 = ['`', '`'] from rfl] at h1
            rw [List.cons.injEq] at h1
            obtain ⟨_, h1b⟩ := h1
            rw [List.cons.injEq] at h1b
            simp [h1b.1]
        exact hlast hin
      · have h1 : (c :: P') <+: (c :: P') ++ (fenceStr ++ t) :=
          List.prefix_append _ _
        have h2 : fenceStr <+: (c :: P') :=
          List.prefix_of_prefix_length_le hp h1 hle
        exact hP (infixOfPre h2)
    have hP' : ¬ fenceStr <:+: P' :=
      fun hin => hP (List.infix_cons_iff.mpr (Or.inr hin))
    have hlast' : P'.getLast? ≠ some '`' := by
      cases P' with
      | nil => simp
      | cons b l =>
        rw [← @List.getLast?_cons_cons _ c b l]
        exact hlast
    exact (@countFence_cons c (P' ++ (fenceStr ++ t)) hnp).trans (ih hP' hlast')

/-! ## Support lemmas: `lstrip`, `rstrip`, `pyStrip` -/

/-- `lstrip` yields a suffix of its input. -/
theorem lstrip_suf (s : List Char) : lstrip s <:+ s := by
  induction s with
  | nil => exact List.suffix_rfl
  | cons c cs ih =>
    simp only [lstrip]
    split
    · exact ih.trans ⟨[c], rfl⟩
    · exact List.suffix_rfl

/-- `lstrip` output is empty or starts with a non-space character. -/
theorem lstrip_head (s : List Char) :
    lstrip s = [] ∨ ∃ c cs, lstrip s = c :: cs ∧ isPySpace c = false := by
  induction s with
  | nil => exact Or.inl rfl
  | cons c cs ih =>
    simp only [lstrip]
    cases hc : isPySpace c with
    | true => simpa using ih
    | false => exact Or.inr ⟨c, cs, by simp, hc⟩

/-- `lstrip` keeps a string whose head is not a space. -/
theorem lstrip_eq_self {c : Char} {cs : List Char} (h : isPySpace c = false) :
    lstrip (c :: cs) = c :: cs := by
  simp [lstrip, h]

/-- `lstrip` is idempotent. -/
theorem lstrip_idem (s : List Char) : lstrip (lstrip s) = lstrip s := by
  rcases lstrip_head s with h | ⟨c, cs, h, hc⟩
  · rw [h]; rfl
  · rw [h, lstrip_eq_self hc]

/-- `rstrip` of the empty string. -/
theorem rstrip_nil : rstrip [] = [] := rfl

/-- `rstrip` yields a prefix of its input. -/
theorem rstrip_pre (s : List Char) : rstrip s <+: s := by
  have h2 : (lstrip s.reverse).reverse <+: s.reverse.reverse :=
    List.reverse_prefix.mpr (lstrip_suf s.reverse)
  rwa [List.reverse_reverse] at h2

/-- `rstrip` is idempotent. -/
theorem rstrip_idem (s : List Char) : rstrip (rstrip s) = rstrip s := by
  unfold rstrip
  rw [List.reverse_reverse, lstrip_idem]

/-- `pyStrip` yields an infix of its input. -/
theorem pyStrip_infix_self (s : List Char) : pyStrip s <:+: s :=
  (infixOfPre (rstrip_pre (lstrip s))).trans (infixOfSuf (lstrip_suf s))

/-- `pyStrip` is idempotent. -/
theorem pyStrip_idem (s : List Char) : pyStrip (pyStrip s) = pyStrip s := by
  unfold pyStrip
  rcases lstrip_head s with h | ⟨c, cs, h, hc⟩
  · rw [h]; rfl
  · rw [h]
    cases he : rstrip (c :: cs) with
    | nil => rfl
    | cons c' cs' =>
      obtain ⟨r, hr⟩ := rstrip_pre (c :: cs)
      rw [he] at hr
      have hcc : c' = c := by
        have := List.cons_prefix_cons.mp ⟨r, hr⟩
        exact this.1
      rw [lstrip_eq_self (hcc ▸ hc), ← he, rstrip_idem]

/-! ## Support lemmas: chunking -/

/-- Concatenating the chunks of `splitChunks` restores the string. -/
theorem splitChunks_join (s : List Char) : (splitChunks s).flatten = s := by
  generalize hn : s.length = n
  induction n using Nat.strong_induction_on generalizing s with
  | _ n ih =>
    rw [splitChunks]
    split
    · rename_i h
      simp [h]
    · rename_i h
      have hlt : (s.drop 4000).length < n := by
        subst hn
        have := List.length_pos.mpr h
        simp only [List.length_drop]
        omega
      rw [List.flatten_cons, ih (s.drop 4000).length hlt (s.drop 4000) rfl,
        List.take_append_drop]

/-- Every chunk produced by `splitChunks` has at most 4000 characters. -/
theorem splitChunks_chunk_le {s c : List Char} (h : c ∈ splitChunks s) :
    c.length ≤ 4000 := by
  have main : ∀ n (s c : List Char), s.length = n → c ∈ splitChunks s →
      c.length ≤ 4000 := by
    intro n
    induction n using Nat.strong_induction_on with
    | _ n ih =>
      intro s c hn h
      rw [splitChunks] at h
      split at h
      · exact absurd h (List.not_mem_nil c)
      · rename_i hne
        rcases List.mem_cons.mp h with rfl | h2
        · simp only [List.length_take]
          omega
        · refine ih (s.drop 4000).length ?_ (s.drop 4000) c rfl h2
          subst hn
          have := List.length_pos.mpr hne
          simp only [List.length_drop]
          omega
  exact main s.length s c rfl h

/-- Concatenating the delivered chunks restores the formatted string. -/
theorem toChunks_join (s : List Char) : (toChunks s).flatten = s := by
  unfold toChunks
  split
  · simp
  · exact splitChunks_join s

/-- Exactly one chunk is delivered when the string fits. -/
theorem toChunks_single {s : List Char} (h : s.length ≤ 4000) :
    toChunks s = [s] := by
  unfold toChunks
  rw [if_pos h]

/-- Every delivered chunk has at most 4000 characters. -/
theorem toChunks_chunk_le {s c : List Char} (h : c ∈ toChunks s) :
    c.length ≤ 4000 := by
  unfold toChunks at h
  split at h
  · rename_i hle
    rcases List.mem_cons.mp h with rfl | h2
    · exact hle
    · exact absurd h2 (List.not_mem_nil c)
  · exact splitChunks_chunk_le h

/-- `splitChunks` on a 9000-character string: three slices. -/
theorem splitChunks_9000 {s : List Char} (h : s.length = 9000) :
    splitChunks s = [s.take 4000, (s.drop 4000).take 4000, s.drop 8000] := by
  have h1 : (s.drop 4000).length = 5000 := by simp [h]
  have h3 : (s.drop 8000).length = 1000 := by simp [h]
  have e2 : (s.drop 4000).drop 4000 = s.drop 8000 := by
    rw [List.drop_drop]
  have h4 : (s.drop 8000).drop 4000 = [] :=
    List.length_eq_zero.mp (by simp [h])
  rw [splitChunks]
  rw [if_neg (fun h0 => by simp [h0] at h)]
  rw [splitChunks]
  rw [if_neg (fun h0 => by rw [h0] at h1; simp at h1)]
  rw [e2]
  rw [splitChunks]
  rw [if_neg (fun h0 => by rw [h0] at h3; simp at h3)]
  rw [h4, List.take_of_length_le (by omega : (s.drop 8000).length ≤ 4000)]
  rw [splitChunks]
  simp

/-! ## Support lemmas: formatter stages -/

/-- `wrap_corrected_text_block` leaves marker-free text unchanged. -/
theorem wrap_eq_self {s : List Char} (h : ¬ markerStr <:+: s) :
    wrap_corrected_text_block s = s := by
  unfold wrap_corrected_text_block
  rw [splitFirst_none_iff.mpr h]

/-- On marker-free, fence-free text the formatting stage is just `strip`. -/
theorem formatText_plain {x : List Char} (hm : ¬ markerStr <:+: x)
    (hf : ¬ fenceStr <:+: x) : formatText x = pyStrip x := by
  unfold formatText
  rw [removeFences_eq_self (fun hin => hf (hin.trans (pyStrip_infix_self x))),
    wrap_eq_self (fun hin => hm (hin.trans (pyStrip_infix_self x)))]

/-! ## Prompt-builder lemmas -/

/-- The task sentence is embedded verbatim in the prompt. -/
theorem task_in_prompt (text mode : List Char) :
    taskFor mode <:+: build_prompt text mode :=
  ⟨promptPre, promptMid ++ text ++ ['\n'],
    by simp [build_prompt, List.append_assoc]⟩

/-- The user text is embedded verbatim in the prompt. -/
theorem text_in_prompt (text mode : List Char) :
    text <:+: build_prompt text mode :=
  ⟨promptPre ++ taskFor mode ++ promptMid, ['\n'],
    by simp [build_prompt, List.append_assoc]⟩

/-! ## Claim theorems -/

/-- C1, counterexample: for mode `explain`, the prompt does not embed the
task sentence "Explain the grammar rules used in this sentence." that the
claim's fixed lookup prescribes (the code uses "Explain grammar rules."). -/
theorem claim_C1_counterexample :
    ¬ ("Explain the grammar rules used in this sentence.".data <:+:
        build_prompt "Hi".data explainStr) := by
  decide

/-- C1, amended: for each of the four modes the prompt embeds the exact
task sentence of the code's lookup (`check` → "Analyze grammar and
correctness.", `rewrite` → "Rewrite this text clearly and naturally.",
`explain` → "Explain grammar rules.", `improve` → "Suggest improvements.")
and embeds the user text verbatim. -/
theorem claim_C1_tasks_and_text (text : List Char) :
    (taskFor checkStr = "Analyze grammar and correctness.".data ∧
      "Analyze grammar and correctness.".data <:+: build_prompt text checkStr ∧
      text <:+: build_prompt text checkStr) ∧
    (taskFor rewriteStr = "Rewrite this text clearly and naturally.".data ∧
      "Rewrite this text clearly and naturally.".data <:+:
        build_prompt text rewriteStr ∧
      text <:+: build_prompt text rewriteStr) ∧
    (taskFor explainStr = "Explain grammar rules.".data ∧
      "Explain grammar rules.".data <:+: build_prompt text explainStr ∧
      text <:+: build_prompt text explainStr) ∧
    (taskFor improveStr = "Suggest improvements.".data ∧
      "Suggest improvements.".data <:+: build_prompt text improveStr ∧
      text <:+: build_prompt text improveStr) :=
  ⟨⟨rfl, task_in_prompt text checkStr, text_in_prompt text checkStr⟩,
   ⟨rfl, task_in_prompt text rewriteStr, text_in_prompt text rewriteStr⟩,
   ⟨rfl, task_in_prompt text explainStr, text_in_prompt text explainStr⟩,
   ⟨rfl, task_in_prompt text improveStr, text_in_prompt text improveStr⟩⟩

/-- C2, counterexample: "weird" is none of the four modes, yet its task is
not the `check` task, refuting "the unknown-mode fallback task equals the
check task". -/
theorem claim_C2_counterexample :
    ("weird".data ≠ checkStr ∧ "weird".data ≠ rewriteStr ∧
      "weird".data ≠ explainStr ∧ "weird".data ≠ improveStr) ∧
    taskFor "weird".data ≠ taskFor checkStr := by
  exact ⟨by decide, by decide⟩

/-- C2, amended: when no mode is stored the mode defaults to `check` and
the prompt uses the check task; a stored mode outside the four enumerated
values gets the distinct generic task "Analyze grammar.". -/
theorem claim_C2_fallback :
    (get_mode [] = checkStr ∧
      taskFor (get_mode []) = "Analyze grammar and correctness.".data) ∧
    (∀ m : List Char, m ≠ checkStr → m ≠ rewriteStr → m ≠ explainStr →
      m ≠ improveStr → taskFor m = "Analyze grammar.".data) := by
  refine ⟨⟨rfl, rfl⟩, fun m h1 h2 h3 h4 => ?_⟩
  unfold taskFor
  rw [if_neg h1, if_neg h2, if_neg h3, if_neg h4]

/-- C2, witness: the amended fallback at the concrete unknown mode "weird". -/
theorem claim_C2_fallback_witness :
    taskFor "weird".data = "Analyze grammar.".data :=
  claim_C2_fallback.2 "weird".data (by decide) (by decide) (by decide)
    (by decide)

/-- C5: when the model call fails with any error, the handler edits the
placeholder to the fixed apology (exactly one user-visible message, no
extra messages), logs the error, and the apology does not depend on the
error. -/
theorem claim_C5_error_handling :
    ∀ (d : UserData) (msgText : Option (List Char)) (e : List Char),
      (analyze_text d msgText (fun _ => Except.error e)).statusEdit =
        some apologyMsg ∧
      (analyze_text d msgText (fun _ => Except.error e)).extraMessages = [] ∧
      (analyze_text d msgText (fun _ => Except.error e)).loggedError =
        some e :=
  fun _ _ _ => ⟨rfl, rfl, rfl⟩

/-- C7: reading the mode of a fresh conversation returns `check`; `/clear`
leaves exactly the mode key set to `check`, so a read after clear returns
`check` for every prior state. -/
theorem claim_C7_default_and_clear :
    get_mode ([] : UserData) = checkStr ∧
    ∀ d : UserData, clear_command_state d = [(modeKey, checkStr)] ∧
      get_mode (clear_command_state d) = checkStr :=
  ⟨rfl, fun _ => ⟨rfl, rfl⟩⟩

/-- C8: the free-text handler never changes the stored conversation state,
whatever the starting state, message text, and model outcome (covering both
the success and the error path). -/
theorem claim_C8_mode_frame :
    ∀ (d : UserData) (msgText : Option (List Char))
      (model : List Char → Except (List Char) (List Char)),
      (analyze_text d msgText model).newState = d := by
  intro d msg model
  simp only [analyze_text]
  split <;> (try split) <;> rfl

/-- C9: a missing message text behaves exactly like the empty string, and
for every text (including empty or whitespace-only) the handler builds the
full prompt and passes it to the model — no early rejection. -/
theorem claim_C9_no_early_reject :
    ∀ (d : UserData) (model : List Char → Except (List Char) (List Char)),
      analyze_text d none model = analyze_text d (some []) model ∧
      ∀ t : List Char,
        (analyze_text d (some t) model).promptSent =
          build_prompt t (get_mode d) := by
  intro d model
  refine ⟨rfl, fun t => ?_⟩
  simp only [analyze_text]
  split <;> (try split) <;> rfl

/-- Appending marker-led text to fence-free text cannot create a fence
(the marker starts with '✅', not a backtick). -/
theorem fence_notin_marker_append {B t : List Char} (hB : ¬ fenceStr <:+: B)
    (ht : ¬ fenceStr <:+: markerStr ++ t) :
    ¬ fenceStr <:+: B ++ (markerStr ++ t) := by
  intro h
  rcases infix_append_cases h with h1 | h1 | ⟨a, b, hab, _, hb, _, hbp⟩
  · exact hB h1
  · exact ht h1
  · obtain ⟨c0, b', rfl⟩ : ∃ c0 b', b = c0 :: b' := by
      cases b with
      | nil => exact absurd rfl hb
      | cons x xs => exact ⟨x, xs, rfl⟩
    have h1 : c0 = '✅' := by
      have h2 : c0 :: b' <+: '✅' :: (" CORRECTED TEXT:".data ++ t) := hbp
      exact (List.cons_prefix_cons.mp h2).1
    have h2 : c0 ∈ fenceStr := by
      have hbs : (c0 :: b') <:+ fenceStr := ⟨a, hab⟩
      exact hbs.sublist.subset (List.mem_cons_self c0 b')
    rw [h1] at h2
    exact absurd h2 (by decide)

/-- C3: on output of the form `B ++ marker ++ "\nHello world\nmore text"`
with marker-free, fence-free `B`, the wrapper emits `B`, the marker, a
newline, then exactly "Hello world" in a fenced block, then a newline and
the untouched "more text"; under the extra assumption that the whole
string is strip-clean, the full formatting stage gives the same result. -/
theorem claim_C3_wrap_hello (B : List Char) (hm : ¬ markerStr <:+: B)
    (hf : ¬ fenceStr <:+: B) :
    wrap_corrected_text_block
        (B ++ markerStr ++ "\nHello world\nmore text".data) =
      B ++ markerStr ++ "\n```\nHello world\n```\nmore text".data ∧
    (pyStrip (B ++ markerStr ++ "\nHello world\nmore text".data) =
        B ++ markerStr ++ "\nHello world\nmore text".data →
      formatText (B ++ markerStr ++ "\nHello world\nmore text".data) =
        B ++ markerStr ++ "\n```\nHello world\n```\nmore text".data) := by
  have h1 : wrap_corrected_text_block
      (B ++ markerStr ++ "\nHello world\nmore text".data) =
      B ++ markerStr ++ "\n```\nHello world\n```\nmore text".data := by
    unfold wrap_corrected_text_block
    rw [splitFirst_marker_append hm]
    rfl
  refine ⟨h1, fun hstrip => ?_⟩
  unfold formatText
  rw [hstrip, removeFences_eq_self ?hfree]
  · exact h1
  case hfree =>
    rw [List.append_assoc]
    exact fence_notin_marker_append hf (by decide)

/-- C3, witness: the wrap at a concrete marker-free, fence-free prefix. -/
theorem claim_C3_wrap_hello_witness :
    wrap_corrected_text_block
        ("Result: ".data ++ markerStr ++ "\nHello world\nmore text".data) =
      "Result: ".data ++ markerStr ++ "\n```\nHello world\n```\nmore text".data :=
  (claim_C3_wrap_hello "Result: ".data (by decide) (by decide)).1

/-- C6: on text containing neither the marker nor a fence, the formatting
stage is idempotent, and consequently re-formatting the concatenation of
the delivered chunks reproduces the same chunks. -/
theorem claim_C6_idempotent (x : List Char) (hm : ¬ markerStr <:+: x)
    (hf : ¬ fenceStr <:+: x) :
    formatText (formatText x) = formatText x ∧
    formatChunks ((formatChunks x).flatten) = formatChunks x := by
  have h1 : formatText x = pyStrip x := formatText_plain hm hf
  have hm2 : ¬ markerStr <:+: pyStrip x :=
    fun hin => hm (hin.trans (pyStrip_infix_self x))
  have hf2 : ¬ fenceStr <:+: pyStrip x :=
    fun hin => hf (hin.trans (pyStrip_infix_self x))
  have h2 : formatText (pyStrip x) = pyStrip (pyStrip x) :=
    formatText_plain hm2 hf2
  have h3 : formatText (formatText x) = formatText x := by
    rw [h1, h2, pyStrip_idem]
  refine ⟨h3, ?_⟩
  unfold formatChunks
  rw [toChunks_join, h3]

/-- C6, witness: idempotence at the concrete marker-free input "  hello ". -/
theorem claim_C6_idempotent_witness :
    formatText (formatText "  hello ".data) = formatText "  hello ".data ∧
    formatChunks ((formatChunks "  hello ".data).flatten) =
      formatChunks "  hello ".data :=
  claim_C6_idempotent "  hello ".data (by decide) (by decide)

/-! ## Replicate helpers for the chunking claim -/

/-- The marker does not occur in a repetition of a non-'✅' character. -/
theorem marker_notin_replicate (n : Nat) (c : Char) (hc : c ≠ '✅') :
    ¬ markerStr <:+: List.replicate n c := by
  intro h
  have h1 : '✅' ∈ List.replicate n c :=
    h.subset (by decide : '✅' ∈ markerStr)
  rw [List.mem_replicate] at h1
  exact hc h1.2.symm

/-- The fence does not occur in a repetition of a non-backtick character. -/
theorem fence_notin_replicate (n : Nat) (c : Char) (hc : c ≠ '`') :
    ¬ fenceStr <:+: List.replicate n c := by
  intro h
  have h1 : '`' ∈ List.replicate n c :=
    h.subset (by decide : '`' ∈ fenceStr)
  rw [List.mem_replicate] at h1
  exact hc h1.2.symm

/-- Stripping a repetition of a non-space character changes nothing. -/
theorem pyStrip_replicate {c : Char} (hc : isPySpace c = false) (n : Nat) :
    pyStrip (List.replicate n c) = List.replicate n c := by
  have hl : lstrip (List.replicate n c) = List.replicate n c := by
    cases n with
    | zero => rfl
    | succ k => rw [List.replicate_succ, lstrip_eq_self hc, ← List.replicate_succ]
  unfold pyStrip rstrip
  rw [hl, List.reverse_replicate, hl, List.reverse_replicate]

/-- `lstrip` consumes a repetition of spaces entirely. -/
theorem lstrip_spaces (n : Nat) : lstrip (List.replicate n ' ') = [] := by
  induction n with
  | zero => rfl
  | succ k ih =>
    rw [List.replicate_succ]
    simp only [lstrip]
    rw [if_pos (by decide : isPySpace ' ' = true)]
    exact ih

/-- C4, counterexample: 9000 spaces contain no marker and have length 9000,
yet the formatter returns a single empty chunk, not three chunks of
lengths 4000, 4000, 1000 concatenating to the fence-stripped input. -/
theorem claim_C4_counterexample :
    (List.replicate 9000 ' ').length = 9000 ∧
    ¬ markerStr <:+: List.replicate 9000 ' ' ∧
    formatChunks (List.replicate 9000 ' ') = [[]] ∧
    (formatChunks (List.replicate 9000 ' ')).length = 1 := by
  have h1 : pyStrip (List.replicate 9000 ' ') = [] := by
    unfold pyStrip
    rw [lstrip_spaces]
    rfl
  have h2 : formatChunks (List.replicate 9000 ' ') = [[]] := by
    unfold formatChunks formatText
    rw [h1]
    rfl
  exact ⟨List.length_replicate 9000 ' ', marker_notin_replicate 9000 ' ' (by decide),
    h2, by rw [h2]; rfl⟩

/-- C4, amended: on a marker-free, fence-free, strip-clean string of length
9000 the formatter returns exactly the three slices of lengths 4000, 4000,
1000 whose concatenation is the input; in general every chunk is a slice of
at most 4000 characters taken in order from the start (their concatenation
restores the formatted string), and a string of formatted length at most
4000 yields exactly one chunk. -/
theorem claim_C4_chunking :
    (∀ x : List Char, ¬ markerStr <:+: x → ¬ fenceStr <:+: x →
      pyStrip x = x → x.length = 9000 →
      formatChunks x = [x.take 4000, (x.drop 4000).take 4000, x.drop 8000] ∧
      (formatChunks x).map List.length = [4000, 4000, 1000] ∧
      (formatChunks x).flatten = x) ∧
    (∀ s : List Char, s.length ≤ 4000 → toChunks s = [s]) ∧
    (∀ s c : List Char, c ∈ toChunks s → c.length ≤ 4000) ∧
    (∀ s : List Char, (toChunks s).flatten = s) := by
  refine ⟨?_, fun s h => toChunks_single h, fun s c h => toChunks_chunk_le h,
    toChunks_join⟩
  intro x hm hf hstrip hlen
  have h1 : formatText x = x := by
    rw [formatText_plain hm hf, hstrip]
  have h2 : formatChunks x = [x.take 4000, (x.drop 4000).take 4000, x.drop 8000] := by
    unfold formatChunks
    rw [h1]
    unfold toChunks
    rw [if_neg (by omega : ¬ x.length ≤ 4000)]
    exact splitChunks_9000 hlen
  refine ⟨h2, ?_, by rw [formatChunks, toChunks_join]; exact h1⟩
  rw [h2]
  simp [hlen]

/-- C4, witness: the amended chunking at 9000 copies of 'a', and the
single-chunk case at "hi". -/
theorem claim_C4_chunking_witness :
    formatChunks (List.replicate 9000 'a') =
      [(List.replicate 9000 'a').take 4000,
       ((List.replicate 9000 'a').drop 4000).take 4000,
       (List.replicate 9000 'a').drop 8000] ∧
    (formatChunks (List.replicate 9000 'a')).map List.length =
      [4000, 4000, 1000] ∧
    toChunks "hi".data = ["hi".data] := by
  have h := claim_C4_chunking.1 (List.replicate 9000 'a')
    (marker_notin_replicate 9000 'a' (by decide))
    (fence_notin_replicate 9000 'a' (by decide))
    (pyStrip_replicate (by decide) 9000) (List.length_replicate 9000 'a')
  exact ⟨h.1, h.2.1, claim_C4_chunking.2.1 "hi".data (by decide)⟩

/-! ## Fence-count helpers for the wrapped output -/

/-- Evaluation of `wrap_corrected_text_block` once the marker split is
known. -/
theorem wrap_eq_of_split {s B aR : List Char}
    (hs : splitFirst markerStr s = some (B, aR)) :
    wrap_corrected_text_block s =
      match splitFirst ['\n'] (lstrip aR) with
      | none => B ++ markerStr ++ '\n' :: wrapBlock (pyStrip (lstrip aR))
      | some (l0, rest) =>
        B ++ markerStr ++ '\n' :: (wrapBlock (pyStrip l0) ++ '\n' :: rest) := by
  unfold wrap_corrected_text_block
  rw [hs]

/-- A newline-framed fence-free line contains no fence. -/
theorem fence_notin_nl_wrap {L : List Char} (hL : ¬ fenceStr <:+: L) :
    ¬ fenceStr <:+: ('\n' :: L) ++ ['\n'] := by
  intro h
  rcases infix_append_cases h with h1 | h1 | ⟨a, b, hab, _, hb, _, hbp⟩
  · rcases List.infix_cons_iff.mp h1 with hp | hin
    · exact absurd (List.cons_prefix_cons.mp hp).1 (by decide)
    · exact hL hin
  · exact absurd h1 (by decide)
  · obtain ⟨c0, b', rfl⟩ : ∃ c0 b', b = c0 :: b' := by
      cases b with
      | nil => exact absurd rfl hb
      | cons x xs => exact ⟨x, xs, rfl⟩
    have h1 : c0 = '\n' := (List.cons_prefix_cons.mp hbp).1
    have h2 : c0 ∈ fenceStr := by
      have hbs : (c0 :: b') <:+ fenceStr := ⟨a, hab⟩
      exact hbs.sublist.subset (List.mem_cons_self c0 b')
    rw [h1] at h2
    exact absurd h2 (by decide)

/-- Prepending a newline to fence-free text keeps it fence-free. -/
theorem fence_notin_cons_nl {R : List Char} (hR : ¬ fenceStr <:+: R) :
    ¬ fenceStr <:+: '\n' :: R := by
  intro h
  rcases List.infix_cons_iff.mp h with hp | hin
  · exact absurd (List.cons_prefix_cons.mp hp).1 (by decide)
  · exact hR hin

/-- C10: after formatting, the text contains exactly two fence occurrences
when the corrected-text marker is present in the fence-stripped text, and
none when it is absent. -/
theorem claim_C10_fence_count (raw : List Char) :
    (markerStr <:+: removeFences (pyStrip raw) →
      countFence (formatText raw) = 2) ∧
    (¬ markerStr <:+: removeFences (pyStrip raw) →
      countFence (formatText raw) = 0) := by
  constructor
  · intro hin
    have hwf : ¬ fenceStr <:+: removeFences (pyStrip raw) :=
      fence_not_in_removeFences (pyStrip raw)
    cases hs : splitFirst markerStr (removeFences (pyStrip raw)) with
    | none => exact absurd hin (splitFirst_none_iff.mp hs)
    | some p =>
      obtain ⟨B, aR⟩ := p
      have hdec : removeFences (pyStrip raw) = B ++ markerStr ++ aR :=
        splitFirst_eq_append hs
      have hB : ¬ fenceStr <:+: B := fun h =>
        hwf (h.trans (infixOfPre ⟨markerStr ++ aR,
          by rw [hdec, List.append_assoc]⟩))
      have haR : ¬ fenceStr <:+: aR := fun h =>
        hwf (h.trans (infixOfSuf ⟨B ++ markerStr, hdec.symm⟩))
      have hlaR : ¬ fenceStr <:+: lstrip aR := fun h =>
        haR (h.trans (infixOfSuf (lstrip_suf aR)))
      unfold formatText
      rw [wrap_eq_of_split hs]
      cases hs2 : splitFirst ['\n'] (lstrip aR) with
      | none =>
        have hL : ¬ fenceStr <:+: pyStrip (lstrip aR) := fun h =>
          hlaR (h.trans (pyStrip_infix_self (lstrip aR)))
        show countFence
          (B ++ markerStr ++ '\n' :: wrapBlock (pyStrip (lstrip aR))) = 2
        have hshape : B ++ markerStr ++ '\n' :: wrapBlock (pyStrip (lstrip aR)) =
            (B ++ (markerStr ++ ['\n'])) ++
              (fenceStr ++
                ('\n' :: ((pyStrip (lstrip aR) ++ ['\n']) ++ (fenceStr ++ [])))) := by
          simp [wrapBlock, List.append_assoc]
        rw [hshape,
          countFence_append (fence_notin_marker_append hB (by decide)) ?l1]
        case l1 =>
          rw [show B ++ (markerStr ++ ['\n']) = (B ++ markerStr) ++ ['\n'] by
            simp [List.append_assoc]]
          rw [List.getLast?_concat]
          simp
        have hshape2 :
            ('\n' : Char) :: ((pyStrip (lstrip aR) ++ ['\n']) ++ (fenceStr ++ [])) =
            (('\n' :: pyStrip (lstrip aR)) ++ ['\n']) ++ (fenceStr ++ []) := by
          simp
        rw [hshape2, countFence_append (fence_notin_nl_wrap hL) ?l2]
        case l2 =>
          rw [List.getLast?_concat]
          simp
        rfl
      | some p2 =>
        obtain ⟨l0, rest⟩ := p2
        have hdec2 : lstrip aR = l0 ++ ['\n'] ++ rest := splitFirst_eq_append hs2
        have hl0 : ¬ fenceStr <:+: l0 := fun h =>
          hlaR (h.trans (infixOfPre ⟨['\n'] ++ rest,
            by rw [hdec2, List.append_assoc]⟩))
        have hrest : ¬ fenceStr <:+: rest := fun h =>
          hlaR (h.trans (infixOfSuf ⟨l0 ++ ['\n'], hdec2.symm⟩))
        have hL : ¬ fenceStr <:+: pyStrip l0 := fun h =>
          hl0 (h.trans (pyStrip_infix_self l0))
        show countFence
          (B ++ markerStr ++ '\n' :: (wrapBlock (pyStrip l0) ++ '\n' :: rest)) = 2
        have hshape :
            B ++ markerStr ++ '\n' :: (wrapBlock (pyStrip l0) ++ '\n' :: rest) =
            (B ++ (markerStr ++ ['\n'])) ++
              (fenceStr ++
                ('\n' :: ((pyStrip l0 ++ ['\n']) ++ (fenceStr ++ ('\n' :: rest))))) := by
          simp [wrapBlock, List.append_assoc]
        rw [hshape,
          countFence_append (fence_notin_marker_append hB (by decide)) ?s1]
        case s1 =>
          rw [show B ++ (markerStr ++ ['\n']) = (B ++ markerStr) ++ ['\n'] by
            simp [List.append_assoc]]
          rw [List.getLast?_concat]
          simp
        have hshape2 :
            ('\n' : Char) :: ((pyStrip l0 ++ ['\n']) ++ (fenceStr ++ ('\n' :: rest))) =
            (('\n' :: pyStrip l0) ++ ['\n']) ++ (fenceStr ++ ('\n' :: rest)) := by
          simp
        rw [hshape2, countFence_append (fence_notin_nl_wrap hL) ?s2]
        case s2 =>
          rw [List.getLast?_concat]
          simp
        rw [countFence_eq_zero (fence_notin_cons_nl hrest)]
  · intro hnin
    unfold formatText
    rw [wrap_eq_self hnin]
    exact countFence_eq_zero (fence_not_in_removeFences (pyStrip raw))

/-- C10, witness: two fences appear at a concrete marker-bearing output,
none at a concrete marker-free output. -/
theorem claim_C10_fence_count_witness :
    countFence (formatText "Checked. ✅ CORRECTED TEXT:\nGood.\nBye".data) = 2 ∧
    countFence (formatText "No marker here".data) = 0 :=
  ⟨(claim_C10_fence_count "Checked. ✅ CORRECTED TEXT:\nGood.\nBye".data).1
      (by decide),
   (claim_C10_fence_count "No marker here".data).2 (by decide)⟩
